import Mathlib

/-!
Verification of the DiNetX accessibility module (`DiNetX/accessibility.py`).

The module computes multi-hop accessibility scores over a graph supplied by
the networkx library.  We shallowly embed the graph collaborator and the
three public entry points `accessibility`, `in_accessibility` and
`out_accessibility` together with the recursive frontier helpers
`_neighbors`, `_neighbors_out` and `_neighbors_in`.

Modelling conventions:
* Node identifiers are strings (the code builds string keys
  `str(node) + '_h_' + str(j)`).
* A graph is a node list plus an edge list; each edge carries an optional
  rational weight (`None` models a missing `weight` attribute).  The
  `directed` flag mirrors `graph.is_directed()`.
* networkx 1.x primitives are embedded directly: on a directed graph
  `graph.edges(n)` returns the outgoing edges of `n`; on an undirected
  graph it returns each incident edge as the pair `(n, other)` and
  `has_edge` / `get_edge_data` are symmetric.
* Python exceptions are modelled by `Except`: `Err.unsupported` is the
  `NetworkXError` raised on the directedness precondition, `Err.data` is
  the uncaught `TypeError` raised when a consulted edge has no usable
  weight, and `Err.zeroDiv` is the uncaught `ZeroDivisionError` raised by
  `p_ij = weight/weights` when the normalizing total is zero.
* Python's `int(...)` coercion applied to each weight when the weighted
  total is computed truncates toward zero; `truncQ` models it.
* All decisions of the code (frontiers, totals, masses, probabilities and
  every error) are exact rational/integer computations; only the final
  entropy/exponential step is real-valued.  The pipeline therefore first
  produces, per `(node, hop)` key, the list of probabilities `p_ij` in
  target order (`..P` functions, computable), and the public functions
  apply the Shannon-entropy scoring `exp (Σ -(p * log p))` to each list,
  skipping `p ≤ 0` terms exactly as the `except ValueError: continue`
  handler does.
-/

abbrev Node := String

abbrev MEdges := List (Node × Node)

/-- Errors of the Python code: the directedness precondition
(`NetworkXError`), a missing/unusable weight attribute (`TypeError`), and
division by a zero total (`ZeroDivisionError`). -/
inductive Err where
  | unsupported
  | data
  | zeroDiv

/-- The graph collaborator: nodes, edges with an optional weight
attribute, and the directedness flag. -/
structure Graph where
  nodes : List Node
  edges : List ((Node × Node) × Option ℚ)
  directed : Bool

/-- The underlying list of edge pairs (without attributes). -/
def edgeList (g : Graph) : MEdges :=
  g.edges.map Prod.fst

/-- `graph.has_edge(u, v)`: existence of the directed edge on a directed
graph, of the edge in either orientation on an undirected graph. -/
def hasEdge (g : Graph) (u v : Node) : Bool :=
  if g.directed then decide ((u, v) ∈ edgeList g)
  else decide ((u, v) ∈ edgeList g) || decide ((v, u) ∈ edgeList g)

/-- The stored `weight` attribute of the stored entry for the pair
`(u, v)`, if any. -/
def wAttr (g : Graph) (u v : Node) : Option ℚ :=
  match g.edges.find? (fun en => decide (en.1 = (u, v))) with
  | some en => en.2
  | none => none

/-- `graph.get_edge_data(u, v).get('weight')`: on an undirected graph the
adjacency is symmetric, so the lookup succeeds in either orientation. -/
def getW (g : Graph) (u v : Node) : Option ℚ :=
  if g.directed then wAttr g u v
  else
    match wAttr g u v with
    | some q => some q
    | none => wAttr g v u

/-- `graph.out_edges(n)` on a directed graph. -/
def outEdges (g : Graph) (n : Node) : MEdges :=
  (edgeList g).filter (fun e => decide (e.1 = n))

/-- `graph.in_edges(n)` on a directed graph. -/
def inEdges (g : Graph) (n : Node) : MEdges :=
  (edgeList g).filter (fun e => decide (e.2 = n))

/-- `graph.edges(n)` on an undirected graph: every incident edge, reported
with `n` first. -/
def incidentEdges (g : Graph) (n : Node) : MEdges :=
  (edgeList g).filterMap (fun e =>
    if e.1 = n then some (n, e.2)
    else if e.2 = n then some (n, e.1) else none)

/-- `graph.edges(n)`: outgoing edges when the graph is directed (networkx
1.x `DiGraph.edges`), incident edges when it is undirected. -/
def edgesND (g : Graph) (n : Node) : MEdges :=
  if g.directed then outEdges g n else incidentEdges g n

/-- Python's `int(...)` coercion on a rational weight: truncation toward
zero. -/
def truncQ (q : ℚ) : ℤ :=
  q.num.tdiv q.den

/-- Shared body of `_neighbors`, `_neighbors_out` and `_neighbors_in`
(lines 212-251): from the raw previous level, step from the endpoint
selected by `pick` using the edge enumerator `step`, flatten, store the
de-duplicated level, and recurse on the raw flattened list with the level
counter decreased. -/
def frontierRec (step : Node → MEdges) (pick : Node × Node → Node) :
    MEdges → Nat → List MEdges
  | _, 0 => []
  | raw, Nat.succ k =>
    let tmp := (raw.map (fun e => step (pick e))).flatten
    tmp.dedup :: frontierRec step pick tmp k

/-- The per-node frontier table `neighbors[1], ..., neighbors[h]` built by
the entry points: level 1 is the raw starting edge list, the recursive
helper fills levels `2..h` (`num_levels = h-1`). -/
def frontierTable (step : Node → MEdges) (pick : Node × Node → Node)
    (start : MEdges) (h : Nat) : List MEdges :=
  start :: frontierRec step pick start (h - 1)

/-- `weights = sum([int(graph.get_edge_data(u, v).get('weight')) for u, v
in neighbors[j]])`: the weighted normalizing total, an integer sum of
truncated weights; a missing weight raises. -/
def totalWeights (g : Graph) : MEdges → Except Err ℤ
  | [] => .ok 0
  | e :: rest =>
    match getW g e.1 e.2 with
    | none => .error .data
    | some q =>
      match totalWeights g rest with
      | .error er => .error er
      | .ok t => .ok (truncQ q + t)

/-- The weighted inner loop for one reached node `n`: over the
complementary endpoints `s`, add `float(get_edge_data(...).get('weight'))`
whenever `has_edge` holds; a missing weight raises.  `mkE n s` is the pair
queried: `(s, n)` in the symmetric/out variants, `(n, s)` in the in
variant. -/
def massG (g : Graph) (mkE : Node → Node → Node × Node) (n : Node) :
    List Node → Except Err ℚ
  | [] => .ok 0
  | s :: rest =>
    if hasEdge g (mkE n s).1 (mkE n s).2 then
      match getW g (mkE n s).1 (mkE n s).2 with
      | none => .error .data
      | some q =>
        match massG g mkE n rest with
        | .error er => .error er
        | .ok m => .ok (q + m)
    else massG g mkE n rest

/-- The unweighted inner loop for one reached node `n`: count the
complementary endpoints `s` with `has_edge`. -/
def degG (g : Graph) (mkE : Node → Node → Node × Node) (n : Node)
    (inner : List Node) : ℚ :=
  (inner.countP (fun s => hasEdge g (mkE n s).1 (mkE n s).2) : ℚ)

/-- The loop `for n in set(...)`: for each reached node, aggregate its
mass (weighted) or degree (unweighted) and divide by the total, collecting
the probabilities `p_ij` in order.  Division by a zero total raises
`ZeroDivisionError`. -/
def probsLoopG (g : Graph) (weighted : Bool) (mkE : Node → Node → Node × Node)
    (total : ℤ) (inner : List Node) : List Node → Except Err (List ℚ)
  | [] => .ok []
  | n :: rest =>
    if weighted then
      match massG g mkE n inner with
      | .error er => .error er
      | .ok m =>
        if total = 0 then .error .zeroDiv
        else
          match probsLoopG g weighted mkE total inner rest with
          | .error er => .error er
          | .ok l => .ok ((m / (total : ℚ)) :: l)
    else
      if total = 0 then .error .zeroDiv
      else
        match probsLoopG g weighted mkE total inner rest with
        | .error er => .error er
        | .ok l => .ok ((degG g mkE n inner / (total : ℚ)) :: l)

/-- One hop's scoring loop body, up to the final entropy/exponential: the
normalizing total (weighted sum of truncated weights, or cardinality), the
de-duplicated endpoint sets `set(tmp_)`, and the probability list. -/
def hopProbsG (g : Graph) (weighted : Bool) (outerOf innerOf : Node × Node → Node)
    (mkE : Node → Node → Node × Node) (F : MEdges) : Except Err (List ℚ) :=
  match (if weighted then totalWeights g F else .ok (F.length : ℤ)) with
  | .error er => .error er
  | .ok total =>
    probsLoopG g weighted mkE total ((F.map innerOf).dedup) ((F.map outerOf).dedup)

/-- Scoring loop of `accessibility` (lines 38-67) and `out_accessibility`
(lines 173-202): the reached nodes are the second components `set(tmp2)`,
the complementary endpoints the first components `set(tmp1)`, and the edge
queried for `n`, `s` is `(s, n)`. -/
def hopProbsOut (g : Graph) (weighted : Bool) (F : MEdges) : Except Err (List ℚ) :=
  hopProbsG g weighted Prod.snd Prod.fst (fun n s => (s, n)) F

/-- Scoring loop of `in_accessibility` (lines 106-135): the reached nodes
are the first components `set(tmp1)`, the complementary endpoints the
second components `set(tmp2)`, and the edge queried for `n`, `s` is
`(n, s)`. -/
def hopProbsIn (g : Graph) (weighted : Bool) (F : MEdges) : Except Err (List ℚ) :=
  hopProbsG g weighted Prod.fst Prod.snd (fun n s => (n, s)) F

/-- The loop `for j in range(1, h+1)` over one node's frontier table,
building the keyed probability lists `str(node) + '_h_' + str(j)`. -/
def hopRows (hp : MEdges → Except Err (List ℚ)) (node : Node) :
    List MEdges → Nat → Except Err (List (String × List ℚ))
  | [], _ => .ok []
  | F :: rest, j =>
    match hp F with
    | .error er => .error er
    | .ok ps =>
      match hopRows hp node rest (j + 1) with
      | .error er => .error er
      | .ok l => .ok ((node ++ "_h_" ++ toString j, ps) :: l)

/-- The loop `for node in graph.nodes_iter()`: build the frontier table of
each node and score every hop, accumulating the result rows. -/
def nodeRows (startE step : Node → MEdges) (pick : Node × Node → Node)
    (hp : MEdges → Except Err (List ℚ)) (h : Nat) :
    List Node → Except Err (List (String × List ℚ))
  | [] => .ok []
  | nd :: rest =>
    match hopRows hp nd (frontierTable step pick (startE nd) h) 1 with
    | .error er => .error er
    | .ok l =>
      match nodeRows startE step pick hp h rest with
      | .error er => .error er
      | .ok l2 => .ok (l ++ l2)

/-- `accessibility(graph, weighted, h)` up to the entropy/exponential
step.  The call `graph.to_undirected()` on line 30 returns a fresh copy
whose reference is discarded, so the traversal runs on the graph exactly
as supplied: `graph.edges(node)` (outgoing edges when directed) is the
starting set and `_neighbors` expands from the second endpoint with the
same enumerator. -/
def accessibilityP (g : Graph) (weighted : Bool) (h : Nat) :
    Except Err (List (String × List ℚ)) :=
  nodeRows (edgesND g) (edgesND g) Prod.snd (hopProbsOut g weighted) h g.nodes

/-- `in_accessibility(graph, weighted, h)` up to the entropy/exponential
step: requires a directed graph, starts from `graph.in_edges(node)` and
expands backwards from the first endpoint. -/
def in_accessibilityP (g : Graph) (weighted : Bool) (h : Nat) :
    Except Err (List (String × List ℚ)) :=
  if g.directed then
    nodeRows (inEdges g) (inEdges g) Prod.fst (hopProbsIn g weighted) h g.nodes
  else .error .unsupported

/-- `out_accessibility(graph, weighted, h)` up to the entropy/exponential
step: requires a directed graph, starts from `graph.out_edges(node)` and
expands forwards from the second endpoint. -/
def out_accessibilityP (g : Graph) (weighted : Bool) (h : Nat) :
    Except Err (List (String × List ℚ)) :=
  if g.directed then
    nodeRows (outEdges g) (outEdges g) Prod.snd (hopProbsOut g weighted) h g.nodes
  else .error .unsupported

/-- One term of the entropy accumulation: `acc += -(p_ij * log(p_ij))`,
with the `except ValueError: continue` handler skipping `p_ij ≤ 0`. -/
noncomputable def entropyTerm (p : ℚ) : ℝ :=
  if 0 < p then -((p : ℝ) * Real.log (p : ℝ)) else 0

/-- The accumulated entropy `acc` over the probability list. -/
noncomputable def entropyAcc (ps : List ℚ) : ℝ :=
  ps.foldr (fun p a => entropyTerm p + a) 0

/-- `math.exp(acc)`: the accessibility score of one hop. -/
noncomputable def hopScore (ps : List ℚ) : ℝ :=
  Real.exp (entropyAcc ps)

/-- Apply the entropy/exponential step to every keyed probability list. -/
noncomputable def finalize (r : Except Err (List (String × List ℚ))) :
    Except Err (List (String × ℝ)) :=
  r.map (fun l => l.map (fun kp => (kp.1, hopScore kp.2)))

/-- `accessibility(graph, weighted, h)`: the returned dictionary, or the
exception that propagates. -/
noncomputable def accessibility (g : Graph) (weighted : Bool) (h : Nat) :
    Except Err (List (String × ℝ)) :=
  finalize (accessibilityP g weighted h)

/-- `in_accessibility(graph, weighted, h)`: the returned dictionary, or
the exception that propagates. -/
noncomputable def in_accessibility (g : Graph) (weighted : Bool) (h : Nat) :
    Except Err (List (String × ℝ)) :=
  finalize (in_accessibilityP g weighted h)

/-- `out_accessibility(graph, weighted, h)`: the returned dictionary, or
the exception that propagates. -/
noncomputable def out_accessibility (g : Graph) (weighted : Bool) (h : Nat) :
    Except Err (List (String × ℝ)) :=
  finalize (out_accessibilityP g weighted h)

/-- Directed graph with edges `B→A` and `C→A` (weight 1): node `A` has
incident edges but no outgoing ones. -/
def exG1 : Graph :=
  { nodes := ["A", "B", "C"],
    edges := [(("B", "A"), some 1), (("C", "A"), some 1)],
    directed := true }

/-- Directed graph with the single edge `A→B` of (positive) weight 1/2:
its truncated weighted total is `int(0.5) = 0`. -/
def exG2 : Graph :=
  { nodes := ["A", "B"],
    edges := [(("A", "B"), some (1/2))],
    directed := true }

/-- Directed graph with the single edge `A→B` of weight 5/2. -/
def exG3 : Graph :=
  { nodes := ["A", "B"],
    edges := [(("A", "B"), some (5/2))],
    directed := true }

/-- An undirected graph (one edge `A—B`). -/
def exG4 : Graph :=
  { nodes := ["A", "B"],
    edges := [(("A", "B"), some 1)],
    directed := false }

/-- Directed graph with the single edge `A→B`: the frontier of `A` dries
up after hop 1. -/
def exG5 : Graph :=
  { nodes := ["A", "B"],
    edges := [(("A", "B"), some 1)],
    directed := true }

/-- The spec's concrete scenario: directed, edges `A→B` and `A→C`, both
of weight 2. -/
def exG6 : Graph :=
  { nodes := ["A", "B", "C"],
    edges := [(("A", "B"), some 2), (("A", "C"), some 2)],
    directed := true }

/-- Directed path `A→B→C` with every edge weight equal to 1. -/
def exG7 : Graph :=
  { nodes := ["A", "B", "C"],
    edges := [(("A", "B"), some 1), (("B", "C"), some 1)],
    directed := true }

/-- Directed graph whose single edge `A→B` has no usable weight
attribute. -/
def exG8 : Graph :=
  { nodes := ["A", "B"],
    edges := [(("A", "B"), none)],
    directed := true }

/-- A single isolated node in a directed graph. -/
def exGiso : Graph :=
  { nodes := ["A"],
    edges := [],
    directed := true }

/-! ### Frontier builder lemmas -/

theorem frontierRec_nil_entry (step : Node → MEdges) (pick : Node × Node → Node) :
    ∀ (k i : Nat), (frontierRec step pick [] k).getD i [] = [] := by
  intro k
  induction k with
  | zero => intro i; simp [frontierRec]
  | succ k ih =>
    intro i
    cases i with
    | zero => simp [frontierRec]
    | succ i0 => simpa [frontierRec] using ih i0

theorem frontierRec_length (step : Node → MEdges) (pick : Node × Node → Node) :
    ∀ (k : Nat) (raw : MEdges), (frontierRec step pick raw k).length = k := by
  intro k
  induction k with
  | zero => intro raw; simp [frontierRec]
  | succ k ih => intro raw; simp [frontierRec, ih]

theorem frontierRec_empty_prop (step : Node → MEdges) (pick : Node × Node → Node) :
    ∀ (k : Nat) (raw : MEdges) (i i' : Nat), i < i' → i' < k →
      (frontierRec step pick raw k).getD i [] = [] →
      (frontierRec step pick raw k).getD i' [] = [] := by
  intro k
  induction k with
  | zero => intro raw i i' _ h2 _; omega
  | succ k ih =>
    intro raw i i' h1 h2 hE
    cases i with
    | zero =>
      have htmp : ((raw.map (fun e => step (pick e))).flatten).dedup = [] := by
        simpa [frontierRec] using hE
      have htmp2 : ((raw.map (fun e => step (pick e))).flatten) = [] :=
        (List.dedup_eq_nil _).mp htmp
      obtain ⟨i0, rfl⟩ : ∃ i0, i' = i0 + 1 := ⟨i' - 1, by omega⟩
      simp only [frontierRec, List.getD_cons_succ]
      rw [htmp2]
      exact frontierRec_nil_entry step pick k i0
    | succ i0 =>
      obtain ⟨i1, rfl⟩ : ∃ i1, i' = i1 + 1 := ⟨i' - 1, by omega⟩
      simp only [frontierRec, List.getD_cons_succ] at hE ⊢
      exact ih _ i0 i1 (by omega) (by omega) hE

theorem frontierTable_length (step : Node → MEdges) (pick : Node × Node → Node)
    (start : MEdges) (h : Nat) (hh : 1 ≤ h) :
    (frontierTable step pick start h).length = h := by
  simp [frontierTable, frontierRec_length]
  omega

theorem frontierTable_empty_prop (step : Node → MEdges) (pick : Node × Node → Node)
    (start : MEdges) (h : Nat) :
    ∀ j k, 1 ≤ j → j < k → k ≤ h →
      (frontierTable step pick start h).getD (j - 1) [] = [] →
      (frontierTable step pick start h).getD (k - 1) [] = [] := by
  intro j k h1 hjk hkh hE
  obtain ⟨k0, rfl⟩ : ∃ k0, k = k0 + 2 := ⟨k - 2, by omega⟩
  have hk1 : k0 + 2 - 1 = k0 + 1 := by omega
  rw [hk1]
  match j, h1 with
  | 1, _ =>
    have hstart : start = [] := by simpa [frontierTable] using hE
    simp only [frontierTable, List.getD_cons_succ]
    rw [hstart]
    exact frontierRec_nil_entry step pick (h - 1) k0
  | (j0 + 2), _ =>
    have hj1 : j0 + 2 - 1 = j0 + 1 := by omega
    rw [hj1] at hE
    simp only [frontierTable, List.getD_cons_succ] at hE ⊢
    exact frontierRec_empty_prop step pick (h - 1) start j0 k0 (by omega) (by omega) hE

theorem edgesND_eq_outEdges (g : Graph) (hd : g.directed = true) :
    edgesND g = outEdges g := by
  funext n
  simp [edgesND, hd]

/-- Claim C9: on a directed graph, the symmetric `accessibility` returns
exactly the same result mapping as `out_accessibility` with the same
arguments — the discarded `to_undirected()` call leaves the graph
directed, so edge enumeration, expansion, scoring and key construction
coincide with the out variant. -/
theorem claim_C9_theorem (g : Graph) (w : Bool) (h : Nat)
    (hd : g.directed = true) :
    accessibility g w h = out_accessibility g w h := by
  unfold accessibility out_accessibility accessibilityP out_accessibilityP
  rw [edgesND_eq_outEdges g hd, hd]
  simp

theorem claim_C9_witness :
    exG6.directed = true ∧
      accessibility exG6 true 2 = out_accessibility exG6 true 2 :=
  ⟨rfl, claim_C9_theorem exG6 true 2 rfl⟩

/-- Claim C5: for every graph, starting node and `H ≥ 1`, each variant's
frontier builder produces a table with exactly `H` entries `F1..FH`
(termination is structural: the level counter strictly decreases to the
base case `num_levels == 0`), and if the entry at depth `j` is empty then
every later entry up to `H` is empty as well, with no error raised. -/
theorem claim_C5_theorem (g : Graph) (nd : Node) (h : Nat) (hh : 1 ≤ h) :
    ((frontierTable (edgesND g) Prod.snd (edgesND g nd) h).length = h ∧
      ∀ j k, 1 ≤ j → j < k → k ≤ h →
        (frontierTable (edgesND g) Prod.snd (edgesND g nd) h).getD (j - 1) [] = [] →
        (frontierTable (edgesND g) Prod.snd (edgesND g nd) h).getD (k - 1) [] = []) ∧
    ((frontierTable (outEdges g) Prod.snd (outEdges g nd) h).length = h ∧
      ∀ j k, 1 ≤ j → j < k → k ≤ h →
        (frontierTable (outEdges g) Prod.snd (outEdges g nd) h).getD (j - 1) [] = [] →
        (frontierTable (outEdges g) Prod.snd (outEdges g nd) h).getD (k - 1) [] = []) ∧
    ((frontierTable (inEdges g) Prod.fst (inEdges g nd) h).length = h ∧
      ∀ j k, 1 ≤ j → j < k → k ≤ h →
        (frontierTable (inEdges g) Prod.fst (inEdges g nd) h).getD (j - 1) [] = [] →
        (frontierTable (inEdges g) Prod.fst (inEdges g nd) h).getD (k - 1) [] = []) :=
  ⟨⟨frontierTable_length _ _ _ h hh, frontierTable_empty_prop _ _ _ h⟩,
   ⟨frontierTable_length _ _ _ h hh, frontierTable_empty_prop _ _ _ h⟩,
   ⟨frontierTable_length _ _ _ h hh, frontierTable_empty_prop _ _ _ h⟩⟩

theorem claim_C5_witness :
    (frontierTable (outEdges exG5) Prod.snd (outEdges exG5 "A") 3).length = 3 ∧
      (frontierTable (outEdges exG5) Prod.snd (outEdges exG5 "A") 3).getD 1 [] = [] ∧
      (frontierTable (outEdges exG5) Prod.snd (outEdges exG5 "A") 3).getD 2 [] = [] :=
  ⟨((claim_C5_theorem exG5 "A" 3 (by omega)).2.1).1,
   by with_unfolding_all rfl,
   ((claim_C5_theorem exG5 "A" 3 (by omega)).2.1).2 2 3 (by omega) (by omega) (by omega)
     (by with_unfolding_all rfl)⟩

/-! ### Error classification -/

theorem totalWeights_error (g : Graph) :
    ∀ (F : MEdges) (er : Err), totalWeights g F = .error er → er = .data := by
  intro F
  induction F with
  | nil => intro er hE; simp [totalWeights] at hE
  | cons e rest ih =>
    intro er hE
    simp only [totalWeights] at hE
    split at hE
    · injection hE with h1; exact h1.symm
    · split at hE
      · next e2 heq =>
          injection hE with h1
          subst h1
          exact ih _ heq
      · exact Except.noConfusion hE

theorem massG_error (g : Graph) (mkE : Node → Node → Node × Node) (n : Node) :
    ∀ (inner : List Node) (er : Err), massG g mkE n inner = .error er → er = .data := by
  intro inner
  induction inner with
  | nil => intro er hE; simp [massG] at hE
  | cons s rest ih =>
    intro er hE
    simp only [massG] at hE
    split at hE
    · split at hE
      · injection hE with h1; exact h1.symm
      · split at hE
        · next e2 heq =>
            injection hE with h1
            subst h1
            exact ih _ heq
        · exact Except.noConfusion hE
    · exact ih _ hE

theorem probsLoopG_error (g : Graph) (w : Bool) (mkE : Node → Node → Node × Node)
    (total : ℤ) (inner : List Node) :
    ∀ (ts : List Node) (er : Err), probsLoopG g w mkE total inner ts = .error er →
      er = .data ∨ er = .zeroDiv := by
  intro ts
  induction ts with
  | nil => intro er hE; simp [probsLoopG] at hE
  | cons n rest ih =>
    intro er hE
    simp only [probsLoopG] at hE
    split at hE
    · -- weighted
      split at hE
      · next e2 heq =>
          injection hE with h1
          subst h1
          exact Or.inl (massG_error g mkE n inner _ heq)
      · split at hE
        · injection hE with h1; exact Or.inr h1.symm
        · split at hE
          · next e2 heq =>
              injection hE with h1
              subst h1
              exact ih _ heq
          · exact Except.noConfusion hE
    · -- unweighted
      split at hE
      · injection hE with h1; exact Or.inr h1.symm
      · split at hE
        · next e2 heq =>
            injection hE with h1
            subst h1
            exact ih _ heq
        · exact Except.noConfusion hE

theorem hopProbsG_error (g : Graph) (w : Bool) (o i : Node × Node → Node)
    (mkE : Node → Node → Node × Node) (F : MEdges) (er : Err)
    (hE : hopProbsG g w o i mkE F = .error er) : er = .data ∨ er = .zeroDiv := by
  unfold hopProbsG at hE
  split at hE
  · next e2 heq =>
      injection hE with h1
      subst h1
      split at heq
      · exact Or.inl (totalWeights_error g F _ heq)
      · exact Except.noConfusion heq
  · exact probsLoopG_error g w mkE _ _ _ er hE

theorem hopRows_error (hp : MEdges → Except Err (List ℚ)) (nd : Node)
    (hhp : ∀ F er, hp F = .error er → er ≠ Err.unsupported) :
    ∀ (table : List MEdges) (j : Nat) (er : Err),
      hopRows hp nd table j = .error er → er ≠ Err.unsupported := by
  intro table
  induction table with
  | nil => intro j er hE; simp [hopRows] at hE
  | cons F rest ih =>
    intro j er hE
    simp only [hopRows] at hE
    split at hE
    · next e2 heq =>
        injection hE with h1
        subst h1
        exact hhp F _ heq
    · split at hE
      · next e2 heq =>
          injection hE with h1
          subst h1
          exact ih (j + 1) _ heq
      · exact Except.noConfusion hE

theorem nodeRows_error (startE step : Node → MEdges) (pick : Node × Node → Node)
    (hp : MEdges → Except Err (List ℚ)) (h : Nat)
    (hhp : ∀ F er, hp F = .error er → er ≠ Err.unsupported) :
    ∀ (nds : List Node) (er : Err),
      nodeRows startE step pick hp h nds = .error er → er ≠ Err.unsupported := by
  intro nds
  induction nds with
  | nil => intro er hE; simp [nodeRows] at hE
  | cons nd rest ih =>
    intro er hE
    simp only [nodeRows] at hE
    split at hE
    · next e2 heq =>
        injection hE with h1
        subst h1
        exact hopRows_error hp nd hhp _ 1 _ heq
    · split at hE
      · next e2 heq =>
          injection hE with h1
          subst h1
          exact ih _ heq
      · exact Except.noConfusion hE

theorem finalize_error (r : Except Err (List (String × List ℚ))) (er : Err)
    (hE : finalize r = .error er) : r = .error er := by
  cases r with
  | error e2 =>
    unfold finalize at hE
    injection hE with h1
    rw [h1]
  | ok l => simp [finalize, Except.map] at hE

/-- Claim C4: for every undirected graph (any weighted flag and any `H`),
`in_accessibility` and `out_accessibility` raise the `UnsupportedOperation`
precondition error before any traversal and never return a result mapping,
while the symmetric `accessibility` imposes no directedness precondition:
it can never produce that error. -/
theorem claim_C4_theorem (g : Graph) (w : Bool) (h : Nat) :
    (g.directed = false →
      in_accessibility g w h = .error Err.unsupported ∧
        out_accessibility g w h = .error Err.unsupported) ∧
    accessibility g w h ≠ .error Err.unsupported := by
  constructor
  · intro hd
    constructor
    · unfold in_accessibility in_accessibilityP finalize
      rw [hd]
      simp [Except.map]
    · unfold out_accessibility out_accessibilityP finalize
      rw [hd]
      simp [Except.map]
  · intro hE
    have hP : accessibilityP g w h = .error Err.unsupported :=
      finalize_error _ _ hE
    have hne : (Err.unsupported : Err) ≠ Err.unsupported := by
      refine nodeRows_error _ _ _ _ h ?_ g.nodes Err.unsupported hP
      intro F er hF hu
      rcases hopProbsG_error g w _ _ _ F er hF with h1 | h1 <;>
        rw [hu] at h1 <;> cases h1
    exact hne rfl

theorem claim_C4_witness :
    in_accessibility exG4 true 3 = .error Err.unsupported ∧
      out_accessibility exG4 true 3 = .error Err.unsupported ∧
      accessibility exG4 true 3 ≠ .error Err.unsupported :=
  ⟨((claim_C4_theorem exG4 true 3).1 rfl).1,
   ((claim_C4_theorem exG4 true 3).1 rfl).2,
   (claim_C4_theorem exG4 true 3).2⟩

/-! ### Structure of successful results -/

theorem hopProbsG_nil (g : Graph) (w : Bool) (o i : Node × Node → Node)
    (mkE : Node → Node → Node × Node) :
    hopProbsG g w o i mkE [] = .ok [] := by
  cases w <;> rfl

theorem hopScore_nil : hopScore [] = 1 := by
  simp [hopScore, entropyAcc, Real.exp_zero]

theorem hopRows_ok_entry (hp : MEdges → Except Err (List ℚ)) (nd : Node) :
    ∀ (table : List MEdges) (j0 : Nat) (l : List (String × List ℚ)),
      hopRows hp nd table j0 = .ok l → ∀ i, i < table.length →
        ∃ ps, hp (table.getD i []) = .ok ps ∧
          (nd ++ "_h_" ++ toString (j0 + i), ps) ∈ l := by
  intro table
  induction table with
  | nil => intro j0 l _ i hi; simp at hi
  | cons F rest ih =>
    intro j0 l hok i hi
    simp only [hopRows] at hok
    split at hok
    · exact Except.noConfusion hok
    · next ps0 hF =>
        split at hok
        · exact Except.noConfusion hok
        · next l2 hr =>
            injection hok with h1
            subst h1
            cases i with
            | zero =>
              refine ⟨ps0, by simpa using hF, ?_⟩
              simp
            | succ i0 =>
              obtain ⟨ps, h1, h2⟩ := ih (j0 + 1) l2 hr i0 (by simpa using hi)
              refine ⟨ps, by simpa using h1, ?_⟩
              have harith : j0 + 1 + i0 = j0 + (i0 + 1) := by omega
              rw [harith] at h2
              exact List.mem_cons_of_mem _ h2

theorem nodeRows_ok_rows (startE step : Node → MEdges) (pick : Node × Node → Node)
    (hp : MEdges → Except Err (List ℚ)) (h : Nat) :
    ∀ (nds : List Node) (r : List (String × List ℚ)),
      nodeRows startE step pick hp h nds = .ok r → ∀ nd ∈ nds,
        ∃ l, hopRows hp nd (frontierTable step pick (startE nd) h) 1 = .ok l ∧
          ∀ x ∈ l, x ∈ r := by
  intro nds
  induction nds with
  | nil => intro r _ nd hnd; simp at hnd
  | cons nd0 rest ih =>
    intro r hok nd hnd
    simp only [nodeRows] at hok
    split at hok
    · exact Except.noConfusion hok
    · next l0 hF =>
        split at hok
        · exact Except.noConfusion hok
        · next l2 hr =>
            injection hok with h1
            subst h1
            rcases List.mem_cons.mp hnd with h2 | h2
            · subst h2
              exact ⟨l0, hF, fun x hx => List.mem_append_left _ hx⟩
            · obtain ⟨l, ha, hb⟩ := ih l2 hr nd h2
              exact ⟨l, ha, fun x hx => List.mem_append_right _ (hb x hx)⟩

theorem rows_empty_entry (startE step : Node → MEdges) (pick : Node × Node → Node)
    (hp : MEdges → Except Err (List ℚ)) (hnil : hp [] = .ok [])
    (h : Nat) (nds : List Node) (r : List (String × List ℚ)) (nd : Node) (j : Nat)
    (hok : nodeRows startE step pick hp h nds = .ok r) (hnd : nd ∈ nds)
    (hj1 : 1 ≤ j) (hjh : j ≤ h)
    (hE : (frontierTable step pick (startE nd) h).getD (j - 1) [] = []) :
    (nd ++ "_h_" ++ toString j, ([] : List ℚ)) ∈ r := by
  obtain ⟨l, hl, hsub⟩ := nodeRows_ok_rows startE step pick hp h nds r hok nd hnd
  have hlen : (frontierTable step pick (startE nd) h).length = h :=
    frontierTable_length _ _ _ h (le_trans hj1 hjh)
  have hi : j - 1 < (frontierTable step pick (startE nd) h).length := by omega
  obtain ⟨ps, hps, hmem⟩ :=
    hopRows_ok_entry hp nd (frontierTable step pick (startE nd) h) 1 l hl (j - 1) hi
  rw [hE, hnil] at hps
  injection hps with h2
  subst h2
  have harith : 1 + (j - 1) = j := by omega
  rw [harith] at hmem
  exact hsub _ hmem

theorem finalize_ok (r : Except Err (List (String × List ℚ))) (m : List (String × ℝ))
    (hE : finalize r = .ok m) :
    ∃ r0, r = .ok r0 ∧ m = r0.map (fun kp => (kp.1, hopScore kp.2)) := by
  cases r with
  | error e => simp [finalize, Except.map] at hE
  | ok r0 =>
    refine ⟨r0, rfl, ?_⟩
    unfold finalize at hE
    simp only [Except.map] at hE
    injection hE with h1
    exact h1.symm

/-- Claim C2 fails on the code: a non-empty hop-1 frontier whose truncated
weighted total is zero (single edge of positive weight 1/2, so
`int(0.5) = 0`) makes `p_ij = weight/weights` raise `ZeroDivisionError`
instead of yielding score 1 for that key. -/
theorem claim_C2_counterexample :
    outEdges exG2 "A" ≠ [] ∧
      getW exG2 "A" "B" = some (1/2) ∧ (0 : ℚ) < 1/2 ∧
      totalWeights exG2 (outEdges exG2 "A") = .ok 0 ∧
      out_accessibility exG2 true 1 = .error Err.zeroDiv := by
  refine ⟨by decide, by with_unfolding_all rfl, by norm_num, ?_, ?_⟩
  · with_unfolding_all rfl
  · with_unfolding_all rfl

/-- Claim C2, amended: in all three variants and both modes, whenever the
hop-`j` frontier of a node is empty (for an isolated node, and in
unweighted mode the only way the total mass can be zero) and the call
returns a mapping, the key for that node and hop is present and maps to
exactly `1 = exp(0)`.  (A *non-empty* frontier whose weighted truncated
total is zero instead raises `ZeroDivisionError`.) -/
theorem claim_C2_theorem (g : Graph) (w : Bool) (h : Nat) (nd : Node) (j : Nat)
    (hj1 : 1 ≤ j) (hjh : j ≤ h) (hnd : nd ∈ g.nodes) :
    (∀ m, accessibility g w h = .ok m →
      (frontierTable (edgesND g) Prod.snd (edgesND g nd) h).getD (j - 1) [] = [] →
      (nd ++ "_h_" ++ toString j, (1 : ℝ)) ∈ m) ∧
    (∀ m, out_accessibility g w h = .ok m →
      (frontierTable (outEdges g) Prod.snd (outEdges g nd) h).getD (j - 1) [] = [] →
      (nd ++ "_h_" ++ toString j, (1 : ℝ)) ∈ m) ∧
    (∀ m, in_accessibility g w h = .ok m →
      (frontierTable (inEdges g) Prod.fst (inEdges g nd) h).getD (j - 1) [] = [] →
      (nd ++ "_h_" ++ toString j, (1 : ℝ)) ∈ m) := by
  refine ⟨?_, ?_, ?_⟩
  · intro m hok hE
    unfold accessibility at hok
    obtain ⟨r0, hr0, hm⟩ := finalize_ok _ _ hok
    have hmem := rows_empty_entry (edgesND g) (edgesND g) Prod.snd (hopProbsOut g w)
      (hopProbsG_nil g w _ _ _) h g.nodes r0 nd j hr0 hnd hj1 hjh hE
    subst hm
    refine List.mem_map.mpr ⟨(nd ++ "_h_" ++ toString j, []), hmem, ?_⟩
    simp [hopScore_nil]
  · intro m hok hE
    unfold out_accessibility at hok
    cases hd : g.directed with
    | false =>
      rw [out_accessibilityP, hd] at hok
      simp [finalize, Except.map] at hok
    | true =>
      rw [out_accessibilityP, hd, if_pos rfl] at hok
      obtain ⟨r0, hr0, hm⟩ := finalize_ok _ _ hok
      have hmem := rows_empty_entry (outEdges g) (outEdges g) Prod.snd (hopProbsOut g w)
        (hopProbsG_nil g w _ _ _) h g.nodes r0 nd j hr0 hnd hj1 hjh hE
      subst hm
      refine List.mem_map.mpr ⟨(nd ++ "_h_" ++ toString j, []), hmem, ?_⟩
      simp [hopScore_nil]
  · intro m hok hE
    unfold in_accessibility at hok
    cases hd : g.directed with
    | false =>
      rw [in_accessibilityP, hd] at hok
      simp [finalize, Except.map] at hok
    | true =>
      rw [in_accessibilityP, hd, if_pos rfl] at hok
      obtain ⟨r0, hr0, hm⟩ := finalize_ok _ _ hok
      have hmem := rows_empty_entry (inEdges g) (inEdges g) Prod.fst (hopProbsIn g w)
        (hopProbsG_nil g w _ _ _) h g.nodes r0 nd j hr0 hnd hj1 hjh hE
      subst hm
      refine List.mem_map.mpr ⟨(nd ++ "_h_" ++ toString j, []), hmem, ?_⟩
      simp [hopScore_nil]

theorem claim_C2_witness :
    ("A_h_1", (1 : ℝ)) ∈ [("A_h_1", hopScore ([] : List ℚ))] :=
  (claim_C2_theorem exGiso true 1 "A" 1 le_rfl le_rfl (by decide)).2.1
    [("A_h_1", hopScore [])] (by with_unfolding_all rfl) (by with_unfolding_all rfl)

/-! ### Missing-weight behaviour -/

theorem totalWeights_data_of_mem (g : Graph) :
    ∀ (F : MEdges) (e : Node × Node), e ∈ F → getW g e.1 e.2 = none →
      totalWeights g F = .error Err.data := by
  intro F
  induction F with
  | nil => intro e he _; simp at he
  | cons e0 rest ih =>
    intro e he hwn
    simp only [totalWeights]
    rcases List.mem_cons.mp he with h1 | h1
    · subst h1
      simp only [hwn]
    · cases hw0 : getW g e0.1 e0.2 with
      | none => rfl
      | some q => simp only [ih e h1 hwn]

theorem massG_data_of_bad (g : Graph) (mkE : Node → Node → Node × Node) (n : Node) :
    ∀ (inner : List Node) (s : Node), s ∈ inner →
      hasEdge g (mkE n s).1 (mkE n s).2 = true →
      getW g (mkE n s).1 (mkE n s).2 = none →
      massG g mkE n inner = .error Err.data := by
  intro inner
  induction inner with
  | nil => intro s hs _ _; simp at hs
  | cons s0 rest ih =>
    intro s hs hhe hwn
    simp only [massG]
    rcases List.mem_cons.mp hs with h1 | h1
    · subst h1
      rw [if_pos hhe]
      simp only [hwn]
    · by_cases hc : hasEdge g (mkE n s0).1 (mkE n s0).2 = true
      · rw [if_pos hc]
        cases hw0 : getW g (mkE n s0).1 (mkE n s0).2 with
        | none => rfl
        | some q => simp only [ih s h1 hhe hwn]
      · rw [if_neg hc]
        exact ih s h1 hhe hwn

theorem probsLoopG_data_of_bad (g : Graph) (mkE : Node → Node → Node × Node)
    (total : ℤ) (inner : List Node) (htz : total ≠ 0) :
    ∀ (ts : List Node) (n : Node), n ∈ ts →
      massG g mkE n inner = .error Err.data →
      probsLoopG g true mkE total inner ts = .error Err.data := by
  intro ts
  induction ts with
  | nil => intro n hn _; simp at hn
  | cons n0 rest ih =>
    intro n hn hbad
    simp only [probsLoopG, if_true]
    rcases List.mem_cons.mp hn with h1 | h1
    · subst h1
      simp only [hbad]
    · cases hm0 : massG g mkE n0 inner with
      | error e2 =>
        simp only [hm0]
        rw [massG_error g mkE n0 inner e2 hm0]
      | ok m =>
        simp only [hm0]
        rw [if_neg htz]
        simp only [ih n h1 hbad]

theorem hopProbsG_data_total (g : Graph) (o i : Node × Node → Node)
    (mkE : Node → Node → Node × Node) (F : MEdges) (e : Node × Node)
    (he : e ∈ F) (hwn : getW g e.1 e.2 = none) :
    hopProbsG g true o i mkE F = .error Err.data := by
  unfold hopProbsG
  simp only [if_true, totalWeights_data_of_mem g F e he hwn]

theorem hopProbsG_data_mass (g : Graph) (o i : Node × Node → Node)
    (mkE : Node → Node → Node × Node) (F : MEdges) (t : ℤ) (n : Node)
    (htw : totalWeights g F = .ok t) (htz : t ≠ 0)
    (hn : n ∈ (F.map o).dedup)
    (hbad : massG g mkE n ((F.map i).dedup) = .error Err.data) :
    hopProbsG g true o i mkE F = .error Err.data := by
  unfold hopProbsG
  simp only [if_true, htw]
  exact probsLoopG_data_of_bad g mkE t _ htz _ n hn hbad

theorem nodeRows_no_ok_of_entry (startE step : Node → MEdges)
    (pick : Node × Node → Node) (hp : MEdges → Except Err (List ℚ)) (h : Nat)
    (nds : List Node) (nd : Node) (j : Nat) (er : Err)
    (hnd : nd ∈ nds) (hj1 : 1 ≤ j) (hjh : j ≤ h)
    (hbad : hp ((frontierTable step pick (startE nd) h).getD (j - 1) []) = .error er) :
    ∀ r, nodeRows startE step pick hp h nds ≠ .ok r := by
  intro r hok
  obtain ⟨l, hl, _⟩ := nodeRows_ok_rows startE step pick hp h nds r hok nd hnd
  have hlen : (frontierTable step pick (startE nd) h).length = h :=
    frontierTable_length _ _ _ h (le_trans hj1 hjh)
  obtain ⟨ps, hps, _⟩ :=
    hopRows_ok_entry hp nd (frontierTable step pick (startE nd) h) 1 l hl (j - 1)
      (by omega)
  rw [hbad] at hps
  exact Except.noConfusion hps

/-- Claim C8: in weighted mode a consulted edge without a usable weight
raises a `DataError` (`Err.data`): in the frontier total (first two
parts), in the per-target aggregation guarded by `has_edge` (next two
parts, for the out/symmetric and in scoring loops); and any scoring error
at some node and hop propagates: the call returns an error and no
(partial) mapping, for the symmetric, out and in variants (last three
parts).  The missing weight is never treated as zero. -/
theorem claim_C8_theorem (g : Graph) :
    (∀ (F : MEdges) (e : Node × Node), e ∈ F → getW g e.1 e.2 = none →
      hopProbsOut g true F = .error Err.data ∧
        hopProbsIn g true F = .error Err.data) ∧
    (∀ (F : MEdges) (t : ℤ) (n s : Node), totalWeights g F = .ok t → t ≠ 0 →
      n ∈ (F.map Prod.snd).dedup → s ∈ (F.map Prod.fst).dedup →
      hasEdge g s n = true → getW g s n = none →
      hopProbsOut g true F = .error Err.data) ∧
    (∀ (F : MEdges) (t : ℤ) (n s : Node), totalWeights g F = .ok t → t ≠ 0 →
      n ∈ (F.map Prod.fst).dedup → s ∈ (F.map Prod.snd).dedup →
      hasEdge g n s = true → getW g n s = none →
      hopProbsIn g true F = .error Err.data) ∧
    (∀ (h : Nat) (nd : Node) (j : Nat) (er : Err),
      nd ∈ g.nodes → 1 ≤ j → j ≤ h →
      hopProbsOut g true
          ((frontierTable (edgesND g) Prod.snd (edgesND g nd) h).getD (j - 1) []) =
        .error er →
      accessibility g true h = .error Err.data ∨
        accessibility g true h = .error Err.zeroDiv) ∧
    (g.directed = true → ∀ (h : Nat) (nd : Node) (j : Nat) (er : Err),
      nd ∈ g.nodes → 1 ≤ j → j ≤ h →
      hopProbsOut g true
          ((frontierTable (outEdges g) Prod.snd (outEdges g nd) h).getD (j - 1) []) =
        .error er →
      out_accessibility g true h = .error Err.data ∨
        out_accessibility g true h = .error Err.zeroDiv) ∧
    (g.directed = true → ∀ (h : Nat) (nd : Node) (j : Nat) (er : Err),
      nd ∈ g.nodes → 1 ≤ j → j ≤ h →
      hopProbsIn g true
          ((frontierTable (inEdges g) Prod.fst (inEdges g nd) h).getD (j - 1) []) =
        .error er →
      in_accessibility g true h = .error Err.data ∨
        in_accessibility g true h = .error Err.zeroDiv) := by
  have hhpOut : ∀ F er2, hopProbsOut g true F = .error er2 → er2 ≠ Err.unsupported := by
    intro F er2 hF hu
    rcases hopProbsG_error g true _ _ _ F er2 hF with h1 | h1 <;>
      rw [hu] at h1 <;> cases h1
  have hhpIn : ∀ F er2, hopProbsIn g true F = .error er2 → er2 ≠ Err.unsupported := by
    intro F er2 hF hu
    rcases hopProbsG_error g true _ _ _ F er2 hF with h1 | h1 <;>
      rw [hu] at h1 <;> cases h1
  refine ⟨?_, ?_, ?_, ?_, ?_, ?_⟩
  · intro F e he hwn
    exact ⟨hopProbsG_data_total g _ _ _ F e he hwn,
           hopProbsG_data_total g _ _ _ F e he hwn⟩
  · intro F t n s htw htz hn hs hhe hwn
    exact hopProbsG_data_mass g _ _ _ F t n htw htz hn
      (massG_data_of_bad g _ n _ s hs hhe hwn)
  · intro F t n s htw htz hn hs hhe hwn
    exact hopProbsG_data_mass g _ _ _ F t n htw htz hn
      (massG_data_of_bad g _ n _ s hs hhe hwn)
  · intro h nd j er hnd hj1 hjh hbad
    have hne := nodeRows_no_ok_of_entry (edgesND g) (edgesND g) Prod.snd
      (hopProbsOut g true) h g.nodes nd j er hnd hj1 hjh hbad
    cases hx : accessibilityP g true h with
    | ok r => exact absurd hx (hne r)
    | error e2 =>
      have hnu : e2 ≠ Err.unsupported :=
        nodeRows_error _ _ _ _ h hhpOut g.nodes e2 hx
      have hfin : accessibility g true h = .error e2 := by
        unfold accessibility
        rw [hx]
        rfl
      cases e2 with
      | unsupported => exact absurd rfl hnu
      | data => exact Or.inl hfin
      | zeroDiv => exact Or.inr hfin
  · intro hd h nd j er hnd hj1 hjh hbad
    have hne := nodeRows_no_ok_of_entry (outEdges g) (outEdges g) Prod.snd
      (hopProbsOut g true) h g.nodes nd j er hnd hj1 hjh hbad
    have hPdef : out_accessibilityP g true h =
        nodeRows (outEdges g) (outEdges g) Prod.snd (hopProbsOut g true) h g.nodes := by
      unfold out_accessibilityP
      rw [hd, if_pos rfl]
    cases hx : nodeRows (outEdges g) (outEdges g) Prod.snd (hopProbsOut g true) h
        g.nodes with
    | ok r => exact absurd hx (hne r)
    | error e2 =>
      have hnu : e2 ≠ Err.unsupported :=
        nodeRows_error _ _ _ _ h hhpOut g.nodes e2 hx
      have hfin : out_accessibility g true h = .error e2 := by
        unfold out_accessibility
        rw [hPdef, hx]
        rfl
      cases e2 with
      | unsupported => exact absurd rfl hnu
      | data => exact Or.inl hfin
      | zeroDiv => exact Or.inr hfin
  · intro hd h nd j er hnd hj1 hjh hbad
    have hne := nodeRows_no_ok_of_entry (inEdges g) (inEdges g) Prod.fst
      (hopProbsIn g true) h g.nodes nd j er hnd hj1 hjh hbad
    have hPdef : in_accessibilityP g true h =
        nodeRows (inEdges g) (inEdges g) Prod.fst (hopProbsIn g true) h g.nodes := by
      unfold in_accessibilityP
      rw [hd, if_pos rfl]
    cases hx : nodeRows (inEdges g) (inEdges g) Prod.fst (hopProbsIn g true) h
        g.nodes with
    | ok r => exact absurd hx (hne r)
    | error e2 =>
      have hnu : e2 ≠ Err.unsupported :=
        nodeRows_error _ _ _ _ h hhpIn g.nodes e2 hx
      have hfin : in_accessibility g true h = .error e2 := by
        unfold in_accessibility
        rw [hPdef, hx]
        rfl
      cases e2 with
      | unsupported => exact absurd rfl hnu
      | data => exact Or.inl hfin
      | zeroDiv => exact Or.inr hfin

theorem claim_C8_witness :
    hopProbsOut exG8 true [("A", "B")] = .error Err.data ∧
      (accessibility exG8 true 1 = .error Err.data ∨
        accessibility exG8 true 1 = .error Err.zeroDiv) :=
  ⟨((claim_C8_theorem exG8).1 [("A", "B")] ("A", "B") (by decide)
      (by with_unfolding_all rfl)).1,
   (claim_C8_theorem exG8).2.2.2.1 1 "A" 1 Err.data (by decide) le_rfl le_rfl
     (by with_unfolding_all rfl)⟩

/-! ### Unweighted mode always succeeds with scores at least one -/

theorem probsLoopG_unw (g : Graph) (mkE : Node → Node → Node × Node)
    (total : ℤ) (inner : List Node) (h0 : 0 < total)
    (hle : (inner.length : ℤ) ≤ total) :
    ∀ ts, ∃ ps, probsLoopG g false mkE total inner ts = .ok ps ∧
      ∀ p ∈ ps, 0 ≤ p ∧ p ≤ 1 := by
  intro ts
  induction ts with
  | nil => exact ⟨[], rfl, by simp⟩
  | cons n rest ih =>
    obtain ⟨ps, hps, hbd⟩ := ih
    refine ⟨degG g mkE n inner / (total : ℚ) :: ps, ?_, ?_⟩
    · simp only [probsLoopG, Bool.false_eq_true, if_false]
      rw [if_neg (by omega)]
      simp only [hps]
    · intro p hp
      have htQ : (0 : ℚ) < (total : ℚ) := by exact_mod_cast h0
      rcases List.mem_cons.mp hp with h1 | h1
      · subst h1
        constructor
        · exact div_nonneg (by unfold degG; exact_mod_cast Nat.zero_le _) htQ.le
        · rw [div_le_one htQ]
          have hc : degG g mkE n inner ≤ (inner.length : ℚ) := by
            unfold degG
            exact_mod_cast List.countP_le_length _
          have hl : ((inner.length : ℕ) : ℚ) ≤ (total : ℚ) := by exact_mod_cast hle
          exact le_trans hc hl
      · exact hbd p h1

theorem hopProbsG_unw (g : Graph) (o i : Node × Node → Node)
    (mkE : Node → Node → Node × Node) (F : MEdges) :
    ∃ ps, hopProbsG g false o i mkE F = .ok ps ∧ ∀ p ∈ ps, 0 ≤ p ∧ p ≤ 1 := by
  by_cases hF : F = []
  · subst hF
    exact ⟨[], hopProbsG_nil _ _ _ _ _, by simp⟩
  · have h0 : 0 < (F.length : ℤ) := by
      have := List.length_pos.mpr hF
      exact_mod_cast this
    have hle : (((F.map i).dedup.length : ℕ) : ℤ) ≤ (F.length : ℤ) := by
      have h1 : (F.map i).dedup.length ≤ (F.map i).length :=
        (List.dedup_sublist _).length_le
      rw [List.length_map] at h1
      exact_mod_cast h1
    obtain ⟨ps, hps, hbd⟩ :=
      probsLoopG_unw g mkE (F.length : ℤ) ((F.map i).dedup) h0 hle ((F.map o).dedup)
    refine ⟨ps, ?_, hbd⟩
    unfold hopProbsG
    simp only [Bool.false_eq_true, if_false]
    exact hps

theorem hopRows_all_ok (hp : MEdges → Except Err (List ℚ))
    (hhp : ∀ F, ∃ ps, hp F = .ok ps ∧ ∀ p ∈ ps, 0 ≤ p ∧ p ≤ 1) (nd : Node) :
    ∀ (table : List MEdges) (j : Nat),
      ∃ r, hopRows hp nd table j = .ok r ∧
        ∀ kv ∈ r, ∀ p ∈ kv.2, 0 ≤ p ∧ p ≤ 1 := by
  intro table
  induction table with
  | nil => intro j; exact ⟨[], rfl, by simp⟩
  | cons F rest ih =>
    intro j
    obtain ⟨ps, hps, hbd⟩ := hhp F
    obtain ⟨r, hr, hrb⟩ := ih (j + 1)
    refine ⟨(nd ++ "_h_" ++ toString j, ps) :: r, ?_, ?_⟩
    · simp only [hopRows, hps, hr]
    · intro kv hkv
      rcases List.mem_cons.mp hkv with h1 | h1
      · subst h1; exact hbd
      · exact hrb kv h1

theorem nodeRows_all_ok (startE step : Node → MEdges) (pick : Node × Node → Node)
    (hp : MEdges → Except Err (List ℚ))
    (hhp : ∀ F, ∃ ps, hp F = .ok ps ∧ ∀ p ∈ ps, 0 ≤ p ∧ p ≤ 1) (h : Nat) :
    ∀ nds, ∃ r, nodeRows startE step pick hp h nds = .ok r ∧
      ∀ kv ∈ r, ∀ p ∈ kv.2, 0 ≤ p ∧ p ≤ 1 := by
  intro nds
  induction nds with
  | nil => exact ⟨[], rfl, by simp⟩
  | cons nd rest ih =>
    obtain ⟨l, hl, hlb⟩ :=
      hopRows_all_ok hp hhp nd (frontierTable step pick (startE nd) h) 1
    obtain ⟨r, hr, hrb⟩ := ih
    refine ⟨l ++ r, ?_, ?_⟩
    · simp only [nodeRows, hl, hr]
    · intro kv hkv
      rcases List.mem_append.mp hkv with h1 | h1
      · exact hlb kv h1
      · exact hrb kv h1

theorem entropyTerm_nonneg (p : ℚ) (_h0 : 0 ≤ p) (h1 : p ≤ 1) :
    0 ≤ entropyTerm p := by
  unfold entropyTerm
  split
  · next hp =>
      have hp' : (0 : ℝ) < (p : ℝ) := by exact_mod_cast hp
      have h1' : (p : ℝ) ≤ 1 := by exact_mod_cast h1
      have hlog : Real.log (p : ℝ) ≤ 0 := Real.log_nonpos hp'.le h1'
      have h2 : (p : ℝ) * Real.log (p : ℝ) ≤ (p : ℝ) * 0 :=
        mul_le_mul_of_nonneg_left hlog hp'.le
      simp only [mul_zero] at h2
      linarith
  · exact le_refl 0

theorem entropyAcc_nonneg :
    ∀ ps : List ℚ, (∀ p ∈ ps, 0 ≤ p ∧ p ≤ 1) → 0 ≤ entropyAcc ps := by
  intro ps
  induction ps with
  | nil => intro _; simp [entropyAcc]
  | cons p rest ih =>
    intro hbd
    have h1 := entropyTerm_nonneg p (hbd p (by simp)).1 (hbd p (by simp)).2
    have h2 := ih (fun q hq => hbd q (List.mem_cons_of_mem _ hq))
    simp only [entropyAcc, List.foldr_cons] at h2 ⊢
    linarith

theorem hopScore_ge_one (ps : List ℚ) (hbd : ∀ p ∈ ps, 0 ≤ p ∧ p ≤ 1) :
    1 ≤ hopScore ps := by
  unfold hopScore
  exact Real.one_le_exp (entropyAcc_nonneg ps hbd)

theorem finalize_ge_one (r : List (String × List ℚ))
    (hrb : ∀ kv ∈ r, ∀ p ∈ kv.2, 0 ≤ p ∧ p ≤ 1) :
    ∀ kv ∈ r.map (fun kp => (kp.1, hopScore kp.2)), (1 : ℝ) ≤ kv.2 := by
  intro kv hkv
  obtain ⟨kv0, h1, h2⟩ := List.mem_map.mp hkv
  subst h2
  exact hopScore_ge_one kv0.2 (hrb kv0 h1)

/-- Claim C10: in unweighted mode each variant (on the graphs its
precondition accepts) always returns a mapping, and every score in it is
at least `1`: each per-target count is at most the frontier cardinality,
so every probability is at most one, every entropy term is non-negative
and the exponentiated entropy is at least `exp 0 = 1`. -/
theorem claim_C10_theorem (g : Graph) (h : Nat) :
    (∃ m, accessibility g false h = .ok m ∧ ∀ kv ∈ m, (1 : ℝ) ≤ kv.2) ∧
    (g.directed = true →
      (∃ m, out_accessibility g false h = .ok m ∧ ∀ kv ∈ m, (1 : ℝ) ≤ kv.2) ∧
      (∃ m, in_accessibility g false h = .ok m ∧ ∀ kv ∈ m, (1 : ℝ) ≤ kv.2)) := by
  constructor
  · obtain ⟨r, hr, hrb⟩ := nodeRows_all_ok (edgesND g) (edgesND g) Prod.snd
      (hopProbsOut g false) (fun F => hopProbsG_unw g _ _ _ F) h g.nodes
    refine ⟨r.map (fun kp => (kp.1, hopScore kp.2)), ?_, finalize_ge_one r hrb⟩
    unfold accessibility
    rw [show accessibilityP g false h = .ok r from hr]
    rfl
  · intro hd
    constructor
    · obtain ⟨r, hr, hrb⟩ := nodeRows_all_ok (outEdges g) (outEdges g) Prod.snd
        (hopProbsOut g false) (fun F => hopProbsG_unw g _ _ _ F) h g.nodes
      refine ⟨r.map (fun kp => (kp.1, hopScore kp.2)), ?_, finalize_ge_one r hrb⟩
      unfold out_accessibility out_accessibilityP
      rw [hd, if_pos rfl, hr]
      rfl
    · obtain ⟨r, hr, hrb⟩ := nodeRows_all_ok (inEdges g) (inEdges g) Prod.fst
        (hopProbsIn g false) (fun F => hopProbsG_unw g _ _ _ F) h g.nodes
      refine ⟨r.map (fun kp => (kp.1, hopScore kp.2)), ?_, finalize_ge_one r hrb⟩
      unfold in_accessibility in_accessibilityP
      rw [hd, if_pos rfl, hr]
      rfl

theorem claim_C10_witness :
    (∃ m, out_accessibility exG6 false 1 = .ok m ∧ ∀ kv ∈ m, (1 : ℝ) ≤ kv.2) ∧
      (∃ m, in_accessibility exG6 false 1 = .ok m ∧ ∀ kv ∈ m, (1 : ℝ) ≤ kv.2) :=
  (claim_C10_theorem exG6 1).2 rfl

/-! ### Unit weights: weighted mode degenerates to unweighted counts -/

theorem findW_unit (u v : Node) :
    ∀ (l : List ((Node × Node) × Option ℚ)), (∀ en ∈ l, en.2 = some 1) →
      (u, v) ∈ l.map Prod.fst →
      (match l.find? (fun en => decide (en.1 = (u, v))) with
       | some en => en.2
       | none => none) = some 1 := by
  intro l
  induction l with
  | nil => intro _ hm; simp at hm
  | cons en0 rest ih =>
    intro hU hm
    by_cases hc : en0.1 = (u, v)
    · simp only [List.find?]
      rw [show (decide (en0.1 = (u, v))) = true from decide_eq_true hc]
      exact hU en0 (by simp)
    · have hm2 : (u, v) ∈ rest.map Prod.fst := by
        rcases List.mem_map.mp hm with ⟨en, hen, he⟩
        rcases List.mem_cons.mp hen with h1 | h1
        · subst h1; exact absurd he hc
        · exact List.mem_map.mpr ⟨en, h1, he⟩
      have hrec := ih (fun en hen => hU en (List.mem_cons_of_mem _ hen)) hm2
      simp only [List.find?]
      rw [show (decide (en0.1 = (u, v))) = false from by simp [hc]]
      exact hrec

theorem wAttr_unit (g : Graph) (hw : ∀ en ∈ g.edges, en.2 = some 1)
    (u v : Node) (hm : (u, v) ∈ edgeList g) : wAttr g u v = some 1 :=
  findW_unit u v g.edges hw hm

theorem wAttr_none (g : Graph) (u v : Node) (hm : (u, v) ∉ edgeList g) :
    wAttr g u v = none := by
  unfold wAttr
  cases hf : g.edges.find? (fun en => decide (en.1 = (u, v))) with
  | none => rfl
  | some en =>
    have h1 := List.find?_some hf
    have h2 := List.mem_of_find?_eq_some hf
    have h3 : en.1 = (u, v) := of_decide_eq_true h1
    exact absurd (List.mem_map.mpr ⟨en, h2, h3⟩) hm

theorem getW_unit_mem (g : Graph) (hw : ∀ en ∈ g.edges, en.2 = some 1)
    (u v : Node) (hm : (u, v) ∈ edgeList g) : getW g u v = some 1 := by
  unfold getW
  split
  · exact wAttr_unit g hw u v hm
  · simp only [wAttr_unit g hw u v hm]

theorem getW_unit_rev (g : Graph) (hw : ∀ en ∈ g.edges, en.2 = some 1)
    (u v : Node) (hd : g.directed = false) (hm : (v, u) ∈ edgeList g) :
    getW g u v = some 1 := by
  unfold getW
  rw [hd]
  simp only [Bool.false_eq_true, if_false]
  by_cases hm2 : (u, v) ∈ edgeList g
  · simp only [wAttr_unit g hw u v hm2]
  · simp only [wAttr_none g u v hm2]
    exact wAttr_unit g hw v u hm

theorem hasEdge_getW_unit (g : Graph) (hw : ∀ en ∈ g.edges, en.2 = some 1)
    (u v : Node) (hc : hasEdge g u v = true) : getW g u v = some 1 := by
  by_cases hd : g.directed = true
  · simp only [hasEdge, hd, if_true, decide_eq_true_eq] at hc
    exact getW_unit_mem g hw u v hc
  · have hd2 : g.directed = false := by simpa using hd
    simp only [hasEdge, hd2, Bool.false_eq_true, if_false, Bool.or_eq_true,
      decide_eq_true_eq] at hc
    rcases hc with h1 | h1
    · exact getW_unit_mem g hw u v h1
    · exact getW_unit_rev g hw u v hd2 h1

theorem outEdges_unit (g : Graph) (hw : ∀ en ∈ g.edges, en.2 = some 1) :
    ∀ (n : Node) (e : Node × Node), e ∈ outEdges g n → getW g e.1 e.2 = some 1 := by
  intro n e he
  exact getW_unit_mem g hw e.1 e.2 (List.mem_of_mem_filter he)

theorem inEdges_unit (g : Graph) (hw : ∀ en ∈ g.edges, en.2 = some 1) :
    ∀ (n : Node) (e : Node × Node), e ∈ inEdges g n → getW g e.1 e.2 = some 1 := by
  intro n e he
  exact getW_unit_mem g hw e.1 e.2 (List.mem_of_mem_filter he)

theorem incidentEdges_unit (g : Graph) (hw : ∀ en ∈ g.edges, en.2 = some 1)
    (hd : g.directed = false) :
    ∀ (n : Node) (e : Node × Node), e ∈ incidentEdges g n → getW g e.1 e.2 = some 1 := by
  intro n e he
  obtain ⟨e0, he0, hfm⟩ := List.mem_filterMap.mp he
  by_cases h1 : e0.1 = n
  · rw [if_pos h1] at hfm
    injection hfm with h2
    subst h2
    have : (n, e0.2) ∈ edgeList g := by
      have : e0 = (n, e0.2) := by
        rw [← h1]
      rw [← this]
      exact he0
    exact getW_unit_mem g hw _ _ this
  · rw [if_neg h1] at hfm
    by_cases h2 : e0.2 = n
    · rw [if_pos h2] at hfm
      injection hfm with h3
      subst h3
      have : (e0.1, n) ∈ edgeList g := by
        have : e0 = (e0.1, n) := by
          rw [← h2]
        rw [← this]
        exact he0
      exact getW_unit_rev g hw _ _ hd this
    · rw [if_neg h2] at hfm
      exact Option.noConfusion hfm

theorem edgesND_unit (g : Graph) (hw : ∀ en ∈ g.edges, en.2 = some 1) :
    ∀ (n : Node) (e : Node × Node), e ∈ edgesND g n → getW g e.1 e.2 = some 1 := by
  intro n e he
  by_cases hd : g.directed = true
  · rw [edgesND, hd, if_pos rfl] at he
    exact outEdges_unit g hw n e he
  · have hd2 : g.directed = false := by simpa using hd
    rw [edgesND, hd2] at he
    simp only [Bool.false_eq_true, if_false] at he
    exact incidentEdges_unit g hw hd2 n e he

theorem frontierRec_all (step : Node → MEdges) (pick : Node × Node → Node)
    (P : Node × Node → Prop) (hstep : ∀ n e, e ∈ step n → P e) :
    ∀ (k : Nat) (raw F : MEdges), F ∈ frontierRec step pick raw k → ∀ e ∈ F, P e := by
  intro k
  induction k with
  | zero => intro raw F hF; simp [frontierRec] at hF
  | succ k ih =>
    intro raw F hF e he
    simp only [frontierRec] at hF
    rcases List.mem_cons.mp hF with h1 | h1
    · subst h1
      have h2 : e ∈ (raw.map (fun e => step (pick e))).flatten := List.mem_dedup.mp he
      obtain ⟨l, hl, hel⟩ := List.mem_flatten.mp h2
      obtain ⟨e0, _, rfl⟩ := List.mem_map.mp hl
      exact hstep _ e hel
    · exact ih _ F h1 e he

theorem frontierTable_all (step : Node → MEdges) (pick : Node × Node → Node)
    (start : MEdges) (h : Nat) (P : Node × Node → Prop)
    (hstart : ∀ e ∈ start, P e) (hstep : ∀ n e, e ∈ step n → P e) :
    ∀ F ∈ frontierTable step pick start h, ∀ e ∈ F, P e := by
  intro F hF
  rcases List.mem_cons.mp hF with h1 | h1
  · subst h1; exact hstart
  · exact frontierRec_all step pick P hstep _ start F h1

theorem totalWeights_unit (g : Graph) :
    ∀ F : MEdges, (∀ e ∈ F, getW g e.1 e.2 = some 1) →
      totalWeights g F = .ok (F.length : ℤ) := by
  intro F
  induction F with
  | nil => intro _; rfl
  | cons e rest ih =>
    intro hU
    simp only [totalWeights, hU e (by simp),
      ih (fun x hx => hU x (List.mem_cons_of_mem _ hx))]
    have ht1 : truncQ 1 = 1 := by with_unfolding_all rfl
    rw [ht1]
    congr 1
    simp only [List.length_cons]
    push_cast
    ring

theorem massG_unit (g : Graph) (mkE : Node → Node → Node × Node) (n : Node)
    (hw : ∀ en ∈ g.edges, en.2 = some 1) :
    ∀ inner, massG g mkE n inner = .ok (degG g mkE n inner) := by
  intro inner
  induction inner with
  | nil => simp [massG, degG]
  | cons s rest ih =>
    by_cases hc : hasEdge g (mkE n s).1 (mkE n s).2 = true
    · have hg := hasEdge_getW_unit g hw _ _ hc
      simp only [massG, if_pos hc, hg, ih]
      unfold degG
      congr 1
      simp only [List.countP_cons, hc, if_true]
      push_cast
      ring
    · simp only [massG, if_neg hc, ih]
      unfold degG
      congr 2
      simp [List.countP_cons, hc]

theorem probsLoopG_unit (g : Graph) (mkE : Node → Node → Node × Node)
    (total : ℤ) (inner : List Node) (hw : ∀ en ∈ g.edges, en.2 = some 1) :
    ∀ ts, probsLoopG g true mkE total inner ts =
      probsLoopG g false mkE total inner ts := by
  intro ts
  induction ts with
  | nil => rfl
  | cons n rest ih =>
    simp only [probsLoopG, if_true, Bool.false_eq_true, if_false,
      massG_unit g mkE n hw inner, ih]

theorem hopProbsG_unit (g : Graph) (o i : Node × Node → Node)
    (mkE : Node → Node → Node × Node) (F : MEdges)
    (hw : ∀ en ∈ g.edges, en.2 = some 1)
    (hFU : ∀ e ∈ F, getW g e.1 e.2 = some 1) :
    hopProbsG g true o i mkE F = hopProbsG g false o i mkE F := by
  unfold hopProbsG
  simp only [if_true, Bool.false_eq_true, if_false, totalWeights_unit g F hFU]
  exact probsLoopG_unit g mkE _ _ hw _

theorem hopRows_congr (hp1 hp2 : MEdges → Except Err (List ℚ)) (nd : Node) :
    ∀ (table : List MEdges) (j : Nat), (∀ F ∈ table, hp1 F = hp2 F) →
      hopRows hp1 nd table j = hopRows hp2 nd table j := by
  intro table
  induction table with
  | nil => intro j _; rfl
  | cons F rest ih =>
    intro j hcong
    simp only [hopRows, hcong F (by simp),
      ih (j + 1) (fun F2 hF2 => hcong F2 (List.mem_cons_of_mem _ hF2))]

theorem nodeRows_congr (startE step : Node → MEdges) (pick : Node × Node → Node)
    (hp1 hp2 : MEdges → Except Err (List ℚ)) (h : Nat)
    (hcong : ∀ nd F, F ∈ frontierTable step pick (startE nd) h → hp1 F = hp2 F) :
    ∀ nds, nodeRows startE step pick hp1 h nds =
      nodeRows startE step pick hp2 h nds := by
  intro nds
  induction nds with
  | nil => rfl
  | cons nd rest ih =>
    simp only [nodeRows, hopRows_congr hp1 hp2 nd _ 1 (hcong nd), ih]

/-- Claim C7: on a graph in which every edge carries weight exactly 1,
every variant returns the same result with `weighted=true` as with
`weighted=false` (weighted sums degenerate to unweighted counts), for
every `H`. -/
theorem claim_C7_theorem (g : Graph) (h : Nat)
    (hw : ∀ en ∈ g.edges, en.2 = some 1) :
    accessibility g true h = accessibility g false h ∧
      out_accessibility g true h = out_accessibility g false h ∧
      in_accessibility g true h = in_accessibility g false h := by
  refine ⟨?_, ?_, ?_⟩
  · unfold accessibility accessibilityP
    refine congrArg finalize ?_
    refine nodeRows_congr _ _ _ _ _ h ?_ g.nodes
    intro nd F hF
    exact hopProbsG_unit g _ _ _ F hw
      (frontierTable_all _ _ _ h _ (edgesND_unit g hw nd) (edgesND_unit g hw) F hF)
  · cases hd : g.directed with
    | false =>
      unfold out_accessibility out_accessibilityP
      rw [hd]
      simp
    | true =>
      unfold out_accessibility out_accessibilityP
      rw [hd, if_pos rfl, if_pos rfl]
      refine congrArg finalize ?_
      refine nodeRows_congr _ _ _ _ _ h ?_ g.nodes
      intro nd F hF
      exact hopProbsG_unit g _ _ _ F hw
        (frontierTable_all _ _ _ h _ (outEdges_unit g hw nd) (outEdges_unit g hw) F hF)
  · cases hd : g.directed with
    | false =>
      unfold in_accessibility in_accessibilityP
      rw [hd]
      simp
    | true =>
      unfold in_accessibility in_accessibilityP
      rw [hd, if_pos rfl, if_pos rfl]
      refine congrArg finalize ?_
      refine nodeRows_congr _ _ _ _ _ h ?_ g.nodes
      intro nd F hF
      exact hopProbsG_unit g _ _ _ F hw
        (frontierTable_all _ _ _ h _ (inEdges_unit g hw nd) (inEdges_unit g hw) F hF)

theorem claim_C7_witness :
    accessibility exG7 true 2 = accessibility exG7 false 2 ∧
      out_accessibility exG7 true 2 = out_accessibility exG7 false 2 ∧
      in_accessibility exG7 true 2 = in_accessibility exG7 false 2 :=
  claim_C7_theorem exG7 2 (by
    intro en hen
    simp only [exG7, List.mem_cons, List.mem_singleton, List.not_mem_nil, or_false] at hen
    rcases hen with rfl | rfl <;> rfl)

/-! ### Concrete evaluations -/

theorem hopScore_one : hopScore [1] = 1 := by
  unfold hopScore entropyAcc
  simp only [List.foldr_cons, List.foldr_nil]
  unfold entropyTerm
  rw [if_pos (by norm_num : (0 : ℚ) < 1)]
  push_cast
  simp [Real.log_one, Real.exp_zero]

/-- Claim C1 evaluated on the code: on the directed graph with edges
`B→A` and `C→A`, the hop-1 frontier of `A` used by the symmetric
`accessibility` is *empty* (only outgoing edges are enumerated, because
the `to_undirected()` conversion promised by the docstring is discarded),
not the two-element set of incident edges the claim describes, and `A`'s
returned score is `1`, not the `2` an undirected neighborhood would give. -/
theorem claim_C1_code_eval :
    edgesND exG1 "A" = [] ∧
      incidentEdges exG1 "A" = [("A", "B"), ("A", "C")] ∧
      accessibility exG1 true 1 =
        .ok [("A_h_1", 1), ("B_h_1", 1), ("C_h_1", 1)] := by
  refine ⟨by with_unfolding_all rfl, by with_unfolding_all rfl, ?_⟩
  have hP : accessibilityP exG1 true 1 =
      .ok [("A_h_1", []), ("B_h_1", [1]), ("C_h_1", [1])] := by
    with_unfolding_all rfl
  unfold accessibility
  rw [hP]
  unfold finalize
  simp only [Except.map, List.map_cons, List.map_nil]
  rw [hopScore_nil, hopScore_one]

theorem truncQ_intCast (z : ℤ) : truncQ ((z : ℤ) : ℚ) = z := by
  unfold truncQ
  rw [Rat.num_intCast, Rat.den_intCast]
  simp

/-- Claim C3 fails on the code: the weighted normalizing total applies
Python's `int(...)` truncation to each weight before summing, so for the
single frontier edge `A→B` of weight `5/2` the code's total is `2`, not
the exact weight sum `5/2`. -/
theorem claim_C3_counterexample :
    outEdges exG3 "A" = [("A", "B")] ∧
      getW exG3 "A" "B" = some (5/2) ∧
      totalWeights exG3 (outEdges exG3 "A") = .ok 2 ∧
      ((outEdges exG3 "A").map (fun e => (getW exG3 e.1 e.2).getD 0)).sum = 5/2 ∧
      ((2 : ℤ) : ℚ) ≠ 5/2 := by
  refine ⟨?_, ?_, ?_, ?_, by norm_num⟩
  · with_unfolding_all rfl
  · with_unfolding_all rfl
  · with_unfolding_all rfl
  · with_unfolding_all rfl

theorem totalWeights_trunc (g : Graph) :
    ∀ F : MEdges, (∀ e ∈ F, (getW g e.1 e.2).isSome = true) →
      totalWeights g F =
        .ok ((F.map (fun e => truncQ ((getW g e.1 e.2).getD 0))).sum) := by
  intro F
  induction F with
  | nil => intro _; rfl
  | cons e rest ih =>
    intro hws
    obtain ⟨q, hq⟩ := Option.isSome_iff_exists.mp (hws e (by simp))
    simp only [totalWeights, hq, ih (fun x hx => hws x (List.mem_cons_of_mem _ hx)),
      List.map_cons, List.sum_cons, Option.getD_some]

theorem trunc_sum_int (g : Graph) :
    ∀ F : MEdges, (∀ e ∈ F, ∃ z : ℤ, getW g e.1 e.2 = some ((z : ℤ) : ℚ)) →
      (((F.map (fun e => truncQ ((getW g e.1 e.2).getD 0))).sum : ℚ) =
        (F.map (fun e => (getW g e.1 e.2).getD 0)).sum) := by
  intro F
  induction F with
  | nil => intro _; simp
  | cons e rest ih =>
    intro hint
    obtain ⟨z, hz⟩ := hint e (by simp)
    have hrec := ih (fun x hx => hint x (List.mem_cons_of_mem _ hx))
    simp only [List.map_cons, List.sum_cons, hz, Option.getD_some, truncQ_intCast]
    rw [Int.cast_add, hrec]

/-- Claim C3, amended: for every frontier in weighted mode (all consulted
weights present), the code's normalizing total is the integer sum of the
*truncated-toward-zero* weights `Σ int(w_e)` — which agrees with the
claim's exact weight sum exactly when every weight is integer-valued.  (In
unweighted mode the total is the frontier cardinality, directly as in the
code.) -/
theorem claim_C3_theorem (g : Graph) (F : MEdges)
    (hws : ∀ e ∈ F, (getW g e.1 e.2).isSome = true) :
    totalWeights g F =
      .ok ((F.map (fun e => truncQ ((getW g e.1 e.2).getD 0))).sum) ∧
    ((∀ e ∈ F, ∃ z : ℤ, getW g e.1 e.2 = some ((z : ℤ) : ℚ)) →
      (((F.map (fun e => truncQ ((getW g e.1 e.2).getD 0))).sum : ℚ) =
        (F.map (fun e => (getW g e.1 e.2).getD 0)).sum)) :=
  ⟨totalWeights_trunc g F hws, fun hint => trunc_sum_int g F hint⟩

theorem claim_C3_witness :
    totalWeights exG6 (outEdges exG6 "A") =
      .ok (((outEdges exG6 "A").map
        (fun e => truncQ ((getW exG6 e.1 e.2).getD 0))).sum) ∧
    ((((outEdges exG6 "A").map
        (fun e => truncQ ((getW exG6 e.1 e.2).getD 0))).sum : ℚ) =
      ((outEdges exG6 "A").map (fun e => (getW exG6 e.1 e.2).getD 0)).sum) := by
  have hout : outEdges exG6 "A" = [("A", "B"), ("A", "C")] := by
    with_unfolding_all rfl
  have hws : ∀ e ∈ outEdges exG6 "A", (getW exG6 e.1 e.2).isSome = true := by
    rw [hout]
    intro e he
    rcases List.mem_cons.mp he with rfl | he2
    · with_unfolding_all rfl
    · rcases List.mem_singleton.mp he2 with rfl
      with_unfolding_all rfl
  have hint : ∀ e ∈ outEdges exG6 "A", ∃ z : ℤ, getW exG6 e.1 e.2 = some ((z : ℤ) : ℚ) := by
    rw [hout]
    intro e he
    rcases List.mem_cons.mp he with rfl | he2
    · exact ⟨2, by with_unfolding_all rfl⟩
    · rcases List.mem_singleton.mp he2 with rfl
      exact ⟨2, by with_unfolding_all rfl⟩
  exact ⟨(claim_C3_theorem exG6 (outEdges exG6 "A") hws).1,
         (claim_C3_theorem exG6 (outEdges exG6 "A") hws).2 hint⟩

theorem entropyAcc_half : entropyAcc [(1 : ℚ)/2, 1/2] = Real.log 2 := by
  unfold entropyAcc
  simp only [List.foldr_cons, List.foldr_nil]
  unfold entropyTerm
  rw [if_pos (by norm_num : (0 : ℚ) < 1/2)]
  have hc : (((1 : ℚ)/2 : ℚ) : ℝ) = (1/2 : ℝ) := by push_cast; ring
  rw [hc]
  have hl : Real.log (1/2 : ℝ) = -Real.log 2 := by
    rw [one_div, Real.log_inv]
  rw [hl]
  ring

theorem hopScore_half : hopScore [(1 : ℚ)/2, 1/2] = 2 := by
  unfold hopScore
  rw [entropyAcc_half]
  exact Real.exp_log (by norm_num)

/-- Claim C6: on the directed graph `{A,B,C}` with `A→B` and `A→C` both of
weight 2, `out_accessibility` with `weighted=true` and `H=1` gives node `A`
at hop 1 the total `4`, probabilities `p(B) = p(C) = 1/2`, entropy `ln 2`,
and the final score exactly `2` (while `B` and `C` score `1`). -/
theorem claim_C6_theorem :
    totalWeights exG6 (outEdges exG6 "A") = .ok 4 ∧
      hopProbsOut exG6 true (outEdges exG6 "A") = .ok [1/2, 1/2] ∧
      entropyAcc [(1 : ℚ)/2, 1/2] = Real.log 2 ∧
      out_accessibility exG6 true 1 =
        .ok [("A_h_1", 2), ("B_h_1", 1), ("C_h_1", 1)] := by
  refine ⟨by with_unfolding_all rfl, by with_unfolding_all rfl, entropyAcc_half, ?_⟩
  have hP : out_accessibilityP exG6 true 1 =
      .ok [("A_h_1", [1/2, 1/2]), ("B_h_1", []), ("C_h_1", [])] := by
    with_unfolding_all rfl
  unfold out_accessibility
  rw [hP]
  unfold finalize
  simp only [Except.map, List.map_cons, List.map_nil]
  rw [hopScore_nil, hopScore_half]
